import Mathlib

/-!
Verification development for the packio RPC runtime core.

Part 1 models the JSON incremental framer
(`include/packio/nl_json_rpc/incremental_buffers.h`): a bracket-depth
scanner with string-escape handling that turns an incoming byte stream
into complete JSON message buffers.

Part 2 models the client call table (`include/packio/client.h`):
correlation of outstanding request ids to completions and timers, with
the three consuming paths (timer fire, response dispatch, write failure).

Buffers are modelled as `List Char`; the scan state mirrors the fields of
the C++ class.  The source writes freshly fed bytes into a scratch region
of `raw_buffer_` past the active view `buffer_`; bytes beyond the view are
never read, so the model keeps `raw_buffer` equal to the readable region
exactly.
-/

namespace Packio

/-- State of `incremental_buffers`: `in_string`, `depth`, the recorded
opener and its matching closer, the raw byte buffer, the length of the
active scan view `buffer_`, and the queue of emitted message buffers. -/
structure incremental_buffers where
  in_string : Bool := false
  depth : Int := 0
  first_char : Char := ' '
  last_char : Char := ' '
  raw_buffer : List Char := []
  buffer_len : Nat := 0
  serialized_objects : List (List Char) := []

/-- A default-constructed `incremental_buffers` (empty buffers; the scan
fields are set by `begin_message` before first use, as in the source). -/
def initial_buffers : incremental_buffers := {}

/-- `available_buffers()`: number of emitted buffers not yet retrieved. -/
def available_buffers (s : incremental_buffers) : Nat :=
  s.serialized_objects.length

/-- `get_parsed_buffer()`: pop the front of the emitted-buffer queue. -/
def get_parsed_buffer (s : incremental_buffers) :
    Option (List Char) × incremental_buffers :=
  match s.serialized_objects with
  | [] => (none, s)
  | b :: rest => (some b, { s with serialized_objects := rest })

/-- The token set `tokens_` chosen by the opener: `"{}\""` or `"[]\""`. -/
def scan_tokens (first_char : Char) : List Char :=
  if first_char = '{' then ['{', '}', '"'] else ['[', ']', '"']

/-- `initialize(first_char)`: record the opener, derive the closer, set
depth to 1 (counting the opener) and leave string state. -/
def begin_message (s : incremental_buffers) (first_char : Char) :
    incremental_buffers :=
  { s with
    first_char := first_char
    last_char := if first_char = '{' then '}' else ']'
    depth := 1
    in_string := false }

/-- Helper for `find_first_of`: first index at or past `start` (walking
the already-dropped suffix) whose character is in `tokens`. -/
def find_from : List Char → List Char → Nat → Option Nat
  | [], _, _ => none
  | c :: rest, tokens, start =>
    if tokens.contains c then some start else find_from rest tokens (start + 1)

/-- `std::string_view::find_first_of(tokens, start)`: least index
`i ≥ start` with `buf[i] ∈ tokens`, if any. -/
def find_first_of (buf tokens : List Char) (start : Nat) : Option Nat :=
  find_from (buf.drop start) tokens start

/-- `is_escaped(pos)`: walk backwards from `pos` over consecutive
backslashes, toggling; true iff an odd run immediately precedes `pos`. -/
def is_escaped (buf : List Char) : Nat → Bool
  | 0 => false
  | pos + 1 => if buf.getD pos ' ' = '\\' then !(is_escaped buf pos) else false

/-- One iteration of the scan loop body of `incremental_parse` at token
position `tp`; returns the new state and the next loop start position
(the source continues from `token_pos + 1`, and after an emission the
`token_pos -= buffer_size` wraparound makes the next search start at 0). -/
def scan_token (s : incremental_buffers) (tp : Nat) :
    incremental_buffers × Nat :=
  let token := s.raw_buffer.getD tp ' '
  if token = '"' && !(is_escaped s.raw_buffer tp) then
    ({ s with in_string := !s.in_string }, tp + 1)
  else if s.in_string then
    (s, tp + 1)
  else if token = s.last_char then
    if s.depth - 1 = 0 then
      let buffer_size := tp + 1
      ({ s with
          depth := 0
          raw_buffer := s.raw_buffer.drop buffer_size
          buffer_len := s.buffer_len - buffer_size
          serialized_objects :=
            s.serialized_objects ++ [s.raw_buffer.take buffer_size] },
        0)
    else ({ s with depth := s.depth - 1 }, tp + 1)
  else
    ({ s with depth := s.depth + 1 }, tp + 1)

/-- The scan loop, with explicit fuel (each iteration strictly decreases
`raw_buffer.length - start`, so the fuel chosen by `scan` below always
suffices; `scan_fuel_sufficient` certifies this). -/
def scan_go : Nat → incremental_buffers → Nat → incremental_buffers
  | 0, s, _ => s
  | fuel + 1, s, start =>
    match find_first_of s.raw_buffer (scan_tokens s.first_char) start with
    | none => s
    | some tp => scan_go fuel (scan_token s tp).1 (scan_token s tp).2

/-- The `while (true)` scan loop of `incremental_parse`, starting the
token search at `start`. -/
def scan (s : incremental_buffers) (start : Nat) : incremental_buffers :=
  scan_go (s.raw_buffer.length + 1 - start) s start

/-- `incremental_parse(bytes)`: if no message is in progress, look for the
first opener in the newly appended bytes (returning early when there is
none), record it; then extend the view over the new bytes and run the
token scan from `token_pos + 1` where `token_pos` is the old view size. -/
def incremental_parse (s : incremental_buffers) (bytes : Nat) :
    incremental_buffers :=
  if s.buffer_len = 0 then
    let new_data := (s.raw_buffer.drop s.buffer_len).take bytes
    match find_first_of new_data ['{', '['] 0 with
    | none => s
    | some first_pos =>
      let s1 := begin_message s (new_data.getD first_pos ' ')
      scan { s1 with buffer_len := s1.buffer_len + bytes } (s1.buffer_len + 1)
  else
    scan { s with buffer_len := s.buffer_len + bytes } (s.buffer_len + 1)

/-- `in_place_buffer_consumed(bytes)`. -/
def in_place_buffer_consumed (s : incremental_buffers) (bytes : Nat) :
    incremental_buffers :=
  if bytes = 0 then s else incremental_parse s bytes

/-- `feed(data)`: reserve, copy the chunk into the scratch region after
the active view, and consume.  Scratch bytes past the view are never read
by the source, so the model keeps exactly the readable region. -/
def feed (s : incremental_buffers) (data : List Char) : incremental_buffers :=
  in_place_buffer_consumed
    { s with raw_buffer := s.raw_buffer.take s.buffer_len ++ data }
    data.length

/-- Specification-side count of the consecutive backslashes immediately
preceding position `pos` (used to state the escape rule). -/
def backslash_run (buf : List Char) : Nat → Nat
  | 0 => 0
  | pos + 1 =>
    if buf.getD pos ' ' = '\\' then backslash_run buf pos + 1 else 0

/-- Specification-side net bracket depth of a buffer for a given
opener/closer pair (ignoring strings; used to state emission claims). -/
def net_depth (opener closer : Char) (b : List Char) : Int :=
  b.foldl (fun d c => if c = opener then d + 1 else if c = closer then d - 1 else d) 0

/-! ## Client call table (`include/packio/client.h`) -/

/-- Modelled from the spec: `error_code.h` is not under src/.  The spec
lists the error codes surfaced to user callbacks — `Success`, `Timeout`,
`CallError`, `WriteError`, `BadMessage` — each with a stable string form.
Codes produced by the transport layer (the cancellation code
`operation_aborted` and OS-level failure codes such as broken pipe) are
modelled alongside, since the source passes them through unchanged. -/
inductive ecode where
  | success
  | timeout
  | call_error
  | write_error
  | bad_message
  | operation_aborted
  | transport (n : Nat)
deriving DecidableEq

/-- Modelled from the spec: the stable string form of each error code
(the category `message()` in the missing `error_code.h`; transport codes
use the system category's message). -/
def ecode.message : ecode → String
  | .success => "success"
  | .timeout => "timeout"
  | .call_error => "call error"
  | .write_error => "write error"
  | .bad_message => "bad message"
  | .operation_aborted => "operation aborted"
  | .transport n => "transport error " ++ toString n

/-- Modelled from the spec: `internal/msgpack_rpc.h` is not under src/;
the packed dialect tags messages 0=request, 1=response, 2=notification. -/
def msgpack_rpc_response_tag : Int := 1

/-- A msgpack object as seen by the client's dispatch path: nil, integer,
string, array, or anything else (opaque). -/
inductive mobj where
  | nil
  | int (n : Int)
  | str (s : String)
  | arr (xs : List mobj)
  | other (tag : Nat)

/-- The `obj.type != msgpack::type::NIL` test used by `dispatch`. -/
def mobj.is_nil : mobj → Bool
  | .nil => true
  | _ => false

/-- msgpack's `obj.as<int>()`: succeeds exactly on integers representable
in a 32-bit C `int`; any other object — a non-integer, or an integer
outside `[-2^31, 2^31)` such as a wire id in `[2^31, 2^32)` — raises
`msgpack::type_error` (modelled as `none`). -/
def as_int : mobj → Option Int
  | .int n => if -(2 ^ 31) ≤ n ∧ n < 2 ^ 31 then some n else none
  | _ => none

/-- Observable client effects: a user completion `(id, error, value)`, a
timer cancellation, closing the connection, or a `msgpack::type_error`
propagating out of `dispatch` (no catch exists in `client.h`). -/
inductive cevent where
  | complete (id : Nat) (ec : ecode) (value : mobj)
  | timer_cancel (id : Nat)
  | close
  | raise

/-- Client state relevant to the call table: the set of pending request
ids (the key set of `pending_`; each entry owns its completion and timer,
identified here by the id), the configured timeout (a `duration_type`
tick count) and the atomic id counter. -/
structure client_state where
  pending : Nat → Bool
  timeout : Int
  next_id : Nat

/-- A freshly constructed client: empty call table, `timeout_{0}`,
`id_{0}`. -/
def initial_client : client_state :=
  { pending := fun _ => false, timeout := 0, next_id := 0 }

/-- `maybe_call_handler(id, result, ec)`: if the id is in the call table,
remove the entry, cancel its timer and invoke its completion with
`(ec, result)`; otherwise the response is silently dropped. -/
def maybe_call_handler (s : client_state) (id : Nat) (result : mobj)
    (ec : ecode) : client_state × List cevent :=
  if s.pending id then
    ({ s with pending := fun k => if k = id then false else s.pending k },
      [cevent.timer_cancel id, cevent.complete id ec result])
  else
    (s, [])

/-- Compare the outcome of the tag's `as<int>()` against the response
tag (the `type = ptr[0].as<int>(); type != response` steps of
`verify_reponse`); `none` models the propagating `msgpack::type_error`. -/
def check_tag : Option Int → Option Bool
  | some tag => some (tag == msgpack_rpc_response_tag)
  | none => none

/-- `verify_reponse`: the message must be a 4-element array whose first
element extracts with `as<int>()` to the response tag. -/
def verify_reponse : mobj → Option Bool
  | .arr [t, _, _, _] => check_tag (as_int t)
  | _ => some false

/-- The tail of `dispatch` after verification, starting from the outcome
of the id's `as<int>()` (the `int id = ptr[1].as<int>()` statement):
raising means the entry is neither removed nor completed.  The extracted
`int` id is used as a `uint32_t` map key, hence the reduction mod 2^32. -/
def route_response (s : client_state) (extracted_id : Option Int)
    (err result : mobj) : client_state × List cevent :=
  match extracted_id with
  | none => (s, [cevent.raise])
  | some rid =>
    if !(err.is_nil) then
      maybe_call_handler s (Int.toNat (rid % 2 ^ 32)) err ecode.call_error
    else
      maybe_call_handler s (Int.toNat (rid % 2 ^ 32)) result ecode.success

/-- `dispatch(response, ec)`: close the connection on an unexpected
message, otherwise extract the id with `as<int>()` and route on the
error and result fields. -/
def dispatch (s : client_state) (response : mobj) :
    client_state × List cevent :=
  match verify_reponse response with
  | none => (s, [cevent.raise])
  | some false => (s, [cevent.close])
  | some true =>
    match response with
    | .arr [_, i, err, result] => route_response s (as_int i) err result
    | _ => (s, [])

/-- The timer wait handler installed by `async_timeout(timer, id)`:
return on cancellation; otherwise, if the id is still pending, remove the
entry and invoke its completion with the timeout error and the string
form of that error's message. -/
def on_timer_fire (s : client_state) (id : Nat) (ec : ecode) :
    client_state × List cevent :=
  if ec = ecode.operation_aborted then
    (s, [])
  else if s.pending id then
    ({ s with pending := fun k => if k = id then false else s.pending k },
      [cevent.complete id ecode.timeout (mobj.str ecode.timeout.message)])
  else
    (s, [])

/-- The `async_write` completion handler installed by `async_call`: on a
write error it hands the failing code and the string form of its message
to `maybe_call_handler`; on success it does nothing. -/
def on_write_complete (s : client_state) (id : Nat) (ec : ecode) :
    client_state × List cevent :=
  if ec = ecode.success then
    (s, [])
  else
    maybe_call_handler s id (mobj.str ec.message) ec

/-- `async_call`: allocate the next id (a wrapping `uint32_t` counter),
insert the entry into the call table, and arm the per-call timer exactly
when the configured timeout is positive.  Returns the new state, the
allocated id, and whether the timer was armed. -/
def async_call (s : client_state) : client_state × Nat × Bool :=
  let id := s.next_id % 2 ^ 32
  ({ pending := fun k => if k = id then true else s.pending k
     timeout := s.timeout
     next_id := (s.next_id + 1) % 2 ^ 32 },
    id,
    decide (0 < s.timeout))

/-- The three paths that can consume a call-table entry: the timer firing
(with the wait handler's error code), a parsed response being dispatched,
and a write completing with an error. -/
inductive cstep where
  | timer_fire (id : Nat) (ec : ecode)
  | response (resp : mobj)
  | write_fail (id : Nat) (ec : ecode)

/-- Dispatch one consuming event to its handler. -/
def client_step (s : client_state) : cstep → client_state × List cevent
  | .timer_fire id ec => on_timer_fire s id ec
  | .response resp => dispatch s resp
  | .write_fail id ec => on_write_complete s id ec

/-- Run a sequence of consuming events, collecting all emitted effects. -/
def run : client_state → List cstep → client_state × List cevent
  | s, [] => (s, [])
  | s, e :: rest =>
    let out := client_step s e
    let out2 := run out.1 rest
    (out2.1, out.2 ++ out2.2)

/-- Is this effect a user-completion invocation for the given id? -/
def is_completion_for (id : Nat) : cevent → Bool
  | .complete i _ _ => i == id
  | _ => false

/-- Number of user-completion invocations for `id` among the effects. -/
def completions_for (id : Nat) (evs : List cevent) : Nat :=
  evs.countP (fun e => is_completion_for id e)

/-- The pending id a well-formed response addresses with consuming
effect, if any: the tag must be 1 and the id must survive `as<int>()`
(ids in `[2^31, 2^32)` raise instead of consuming). -/
def resp_target : mobj → Option Nat
  | .arr [.int 1, i, _, _] =>
    (as_int i).map (fun n => Int.toNat (n % 2 ^ 32))
  | _ => none

/-- Does this event address pending id `id` with consuming effect? -/
def targets (id : Nat) : cstep → Bool
  | .timer_fire i ec => i == id && !(ec == ecode.operation_aborted)
  | .response resp => resp_target resp == some id
  | .write_fail i ec => i == id && !(ec == ecode.success)

/-- A sample client state with exactly id 0 pending and a positive
timeout configured (used in closed instances of the client theorems). -/
def pending0 : client_state :=
  { pending := fun k => k == 0, timeout := 5, next_id := 1 }

/-- A sample client state whose single pending id 2^31 is reachable via
the wrapping `uint32_t` counter but not representable in a C `int`. -/
def pending31 : client_state :=
  { pending := fun k => k == 2 ^ 31, timeout := 5, next_id := 2 ^ 31 + 1 }

/-! ## Theorems -/

/-- C1: the framing round-trip fails on the code.  The single message
`{}` fed in one chunk is emitted, but the same message split at the byte
boundary between `{` and `}` is never emitted: the scan resumes at
`token_pos + 1` with `token_pos` equal to the old view size, so the first
byte of every appended chunk is skipped.  A mixed-opener concatenation
`{}[]` fed as one chunk likewise loses the `[]` message, because the
opener is not re-examined after an emission within the same chunk. -/
theorem chunk_split_roundtrip_fails :
    (feed initial_buffers ['{', '}']).serialized_objects = [['{', '}']]
    ∧ (feed (feed initial_buffers ['{']) ['}']).serialized_objects = []
    ∧ (feed (feed initial_buffers ['{']) ['}']).buffer_len = 2
    ∧ (feed initial_buffers ['{', '}', '[', ']']).serialized_objects
        = [['{', '}']] := by
  refine ⟨rfl, rfl, rfl, rfl⟩

/-- C5: bytes preceding the first opener are not discarded.  Feeding
`" {}"` emits nothing — the opener at index 1 is scanned again after
`initialize` already counted it, so the depth never returns to zero — and
after a further `"{}"` chunk the leading space ends up inside the single
emitted buffer `" {}{}"`, contradicting both that whitespace never
prevents a following message from being emitted and that it never appears
in an emitted buffer. -/
theorem leading_whitespace_not_discarded :
    (feed initial_buffers [' ', '{', '}']).serialized_objects = []
    ∧ (feed (feed initial_buffers [' ', '{', '}']) ['{', '}']).serialized_objects
        = [[' ', '{', '}', '{', '}']] := by
  refine ⟨rfl, rfl⟩

/-- C8: the framer can emit a proper prefix of a message.  The message
`{{}}` split as `{` + `{}}` makes the scan skip the second `{` (first
byte of the appended chunk), so the internal depth hits zero at the first
`}` and the emitted buffer is `{{}`, whose net bracket depth is 1: the
buffer does not end at the closer matching its opening brace. -/
theorem emits_proper_prefix :
    (feed (feed initial_buffers ['{']) ['{', '}', '}']).serialized_objects
        = [['{', '{', '}']]
    ∧ net_depth '{' '}' ['{', '{', '}'] = 1 := by
  refine ⟨rfl, rfl⟩

/-- C10: `get_parsed_buffer` returns `none` exactly when
`available_buffers()` is zero; otherwise it returns the front (oldest)
emitted buffer, removes it, and decreases `available_buffers()` by one —
and emission (`scan_token`) only ever appends at the back, so retrieval
is FIFO in emission order. -/
theorem get_parsed_buffer_fifo (s : incremental_buffers) :
    ((get_parsed_buffer s).1 = none ↔ available_buffers s = 0)
    ∧ (∀ b, (get_parsed_buffer s).1 = some b →
        s.serialized_objects.head? = some b
        ∧ available_buffers (get_parsed_buffer s).2 + 1 = available_buffers s
        ∧ (get_parsed_buffer s).2.serialized_objects = s.serialized_objects.tail)
    ∧ (∀ tp, ∃ t, (scan_token s tp).1.serialized_objects
        = s.serialized_objects ++ t) := by
  refine ⟨?_, ?_, ?_⟩
  · cases h : s.serialized_objects <;>
      simp [get_parsed_buffer, available_buffers, h]
  · intro b hb
    cases h : s.serialized_objects with
    | nil => simp [get_parsed_buffer, h] at hb
    | cons x rest =>
      simp [get_parsed_buffer, h] at hb
      subst hb
      simp [get_parsed_buffer, available_buffers, h]
  · intro tp
    simp only [scan_token]
    split_ifs
    · exact ⟨[], by simp⟩
    · exact ⟨[], by simp⟩
    · exact ⟨[s.raw_buffer.take (tp + 1)], by simp⟩
    · exact ⟨[], by simp⟩
    · exact ⟨[], by simp⟩

/-- `find_from` returns an index at or past its start accumulator and
within the walked suffix. -/
theorem find_from_bounds :
    ∀ (l tokens : List Char) (i j : Nat),
      find_from l tokens i = some j → i ≤ j ∧ j < i + l.length := by
  intro l
  induction l with
  | nil => intro tokens i j h; simp [find_from] at h
  | cons c rest ih =>
    intro tokens i j h
    simp only [find_from] at h
    split_ifs at h with hc
    · cases h
      refine ⟨Nat.le_refl _, ?_⟩
      simp only [List.length_cons]
      omega
    · have := ih tokens (i + 1) j h
      simp only [List.length_cons]
      omega

/-- `find_first_of` returns an index in `[start, buf.length)`. -/
theorem find_first_of_bounds (buf tokens : List Char) (start j : Nat)
    (h : find_first_of buf tokens start = some j) :
    start ≤ j ∧ j < buf.length := by
  have hb := find_from_bounds _ _ _ _ h
  have hd : (buf.drop start).length = buf.length - start := List.length_drop _ _
  omega

/-- One scan iteration does not increase the loop measure
`raw_buffer.length - next_start` past `raw_buffer.length - (tp + 1)`. -/
theorem scan_token_measure (s : incremental_buffers) (tp : Nat) :
    (scan_token s tp).1.raw_buffer.length - (scan_token s tp).2
      ≤ s.raw_buffer.length - (tp + 1) := by
  simp only [scan_token]
  split_ifs <;> simp

/-- The scan loop's result does not depend on the fuel once the fuel
exceeds the loop measure, so `scan` (which passes
`raw_buffer.length + 1 - start`) models the unbounded `while` loop. -/
theorem scan_go_eq_of_lt :
    ∀ (f1 f2 : Nat) (s : incremental_buffers) (start : Nat),
      s.raw_buffer.length - start < f1 → s.raw_buffer.length - start < f2 →
      scan_go f1 s start = scan_go f2 s start := by
  intro f1
  induction f1 with
  | zero => intro f2 s start h1 _; exact absurd h1 (by omega)
  | succ f ih =>
    intro f2 s start h1 h2
    cases f2 with
    | zero => exact absurd h2 (by omega)
    | succ g =>
      simp only [scan_go]
      cases hf : find_first_of s.raw_buffer (scan_tokens s.first_char) start with
      | none => rfl
      | some tp =>
        have hb := find_first_of_bounds _ _ _ _ hf
        have hm := scan_token_measure s tp
        exact ih g _ _ (by omega) (by omega)

/-- The fuel passed by `scan` always suffices. -/
theorem scan_fuel_sufficient (fuel : Nat) (s : incremental_buffers)
    (start : Nat) (h : s.raw_buffer.length - start < fuel) :
    scan_go fuel s start = scan s start := by
  by_cases hs : start ≤ s.raw_buffer.length
  · unfold scan
    exact scan_go_eq_of_lt fuel _ s start h (by omega)
  · have hdrop : s.raw_buffer.drop start = [] := List.drop_eq_nil_of_le (by omega)
    have h0 : s.raw_buffer.length + 1 - start = 0 := by omega
    cases fuel with
    | zero => exact absurd h (by omega)
    | succ f => simp [scan, scan_go, find_first_of, hdrop, find_from, h0]

/-- `is_escaped` computes exactly the parity of the run of consecutive
backslashes immediately preceding the position. -/
theorem is_escaped_eq_parity (buf : List Char) :
    ∀ pos, is_escaped buf pos = decide (backslash_run buf pos % 2 = 1) := by
  intro pos
  induction pos with
  | zero => simp [is_escaped, backslash_run]
  | succ p ih =>
    simp only [is_escaped, backslash_run]
    by_cases h : buf.getD p ' ' = '\\'
    · simp only [h, if_pos rfl, ih]
      rcases Nat.mod_two_eq_zero_or_one (backslash_run buf p) with h2 | h2 <;>
        simp [h2, Nat.add_mod]
    · have h2 : ¬ buf[p]?.getD ' ' = '\\' := by
        simpa [List.getD_eq_getElem?_getD] using h
      simp [h2]

/-- C6: in the scan loop body, a quote preceded by an even run of
consecutive backslashes toggles the in-string state while an odd run
leaves it unchanged; and while in-string, no token alters the bracket
depth, the buffer, or the emitted messages — so brackets and escaped
quotes inside quoted strings never change the depth count. -/
theorem escape_and_string_rules (s : incremental_buffers) (tp : Nat) :
    (s.raw_buffer.getD tp ' ' = '"' →
      (scan_token s tp).1.in_string =
        (if backslash_run s.raw_buffer tp % 2 = 0 then !s.in_string
         else s.in_string))
    ∧ (s.in_string = true →
        (scan_token s tp).1.depth = s.depth
        ∧ (scan_token s tp).1.raw_buffer = s.raw_buffer
        ∧ (scan_token s tp).1.serialized_objects = s.serialized_objects) := by
  constructor
  · intro hq
    rcases Nat.mod_two_eq_zero_or_one (backslash_run s.raw_buffer tp) with h2 | h2
    · simp only [scan_token, hq, is_escaped_eq_parity, h2]
      simp
    · simp only [scan_token, hq, is_escaped_eq_parity, h2]
      norm_num
      split_ifs <;> rfl
  · intro hs
    simp only [scan_token]
    split_ifs <;> simp_all

/-- Closed instance of the escape rules: an odd-escaped quote does not
toggle the in-string state, and a closer seen while in-string leaves the
depth unchanged. -/
theorem escape_and_string_rules_witness :
    ((scan_token { initial_buffers with
        raw_buffer := ['{', '\\', '"'], buffer_len := 3, depth := 1,
        first_char := '{', last_char := '}' } 2).1.in_string
      = (if backslash_run ['{', '\\', '"'] 2 % 2 = 0 then !false else false))
    ∧ ((scan_token { initial_buffers with
        raw_buffer := ['}'], buffer_len := 1, depth := 1, in_string := true,
        first_char := '{', last_char := '}' } 0).1.depth = 1) := by
  constructor
  · exact (escape_and_string_rules _ 2).1 rfl
  · exact ((escape_and_string_rules _ 0).2 rfl).1

/-- Closed instance of the FIFO property at a two-element queue. -/
theorem get_parsed_buffer_fifo_witness :
    (get_parsed_buffer
        { initial_buffers with
          serialized_objects := [['{', '}'], ['[', ']']] }).1 = some ['{', '}']
    ∧ available_buffers
        (get_parsed_buffer
          { initial_buffers with
            serialized_objects := [['{', '}'], ['[', ']']] }).2 + 1 = 2 := by
  have h := (get_parsed_buffer_fifo
    { initial_buffers with
      serialized_objects := [['{', '}'], ['[', ']']] }).2.1 ['{', '}'] rfl
  exact ⟨rfl, h.2.1⟩

/-- C2: `async_call` arms the per-call timer iff the configured timeout
is positive; a fresh client has timeout 0 (so by the iff no timer is ever
armed by default); and when an armed timer fires (any wait code other
than cancellation) while the entry is still pending, the entry is removed
from the call table and the completion is invoked with the timeout error
and, as value, the string form of that error's message. -/
theorem timer_armed_iff_timeout_pos (s : client_state) (id : Nat)
    (ec : ecode) (hec : ec ≠ ecode.operation_aborted) :
    ((async_call s).2.2 = true ↔ 0 < s.timeout)
    ∧ initial_client.timeout = 0
    ∧ (on_timer_fire s id ec).1.pending id = false
    ∧ (s.pending id = true →
        (on_timer_fire s id ec).2 =
          [cevent.complete id ecode.timeout (mobj.str ecode.timeout.message)]) := by
  refine ⟨by simp [async_call], rfl, ?_, ?_⟩
  · simp only [on_timer_fire, if_neg hec]
    by_cases hp : s.pending id <;> simp [hp]
  · intro hp
    simp [on_timer_fire, hec, hp]

/-- Closed instance of the timeout behavior at a concrete state. -/
theorem timer_armed_iff_timeout_pos_witness :
    (((async_call pending0).2.2 = true ↔ 0 < pending0.timeout)
      ∧ initial_client.timeout = 0
      ∧ (on_timer_fire pending0 0 ecode.success).1.pending 0 = false
      ∧ (on_timer_fire pending0 0 ecode.success).2 =
          [cevent.complete 0 ecode.timeout (mobj.str ecode.timeout.message)]) :=
  let h := timer_armed_iff_timeout_pos pending0 0 ecode.success (by decide)
  ⟨h.1, h.2.1, h.2.2.1, h.2.2.2 rfl⟩

/-- C3 counterexample: a response bearing the pending id 2^31 — reachable
via the wrapping `uint32_t` counter but not representable in a C `int` —
makes `as<int>()` raise `msgpack::type_error`: the entry is neither
removed nor completed, refuting the claim for that response. -/
theorem routing_raises_above_int_max :
    (dispatch pending31
        (mobj.arr [mobj.int 1, mobj.int (2 ^ 31), mobj.nil, mobj.int 42])).1.pending
        (2 ^ 31) = true
    ∧ (dispatch pending31
        (mobj.arr [mobj.int 1, mobj.int (2 ^ 31), mobj.nil, mobj.int 42])).2
        = [cevent.raise] := by
  exact ⟨rfl, rfl⟩

/-- C3 (amended): dispatching a parsed response whose id is pending and
representable in a C `int` (below 2^31) removes the entry, cancels its
timer, and invokes the completion with `(Success, result)` when the
error field is nil and `(CallError, error)` when it is non-nil.  (For
pending ids in `[2^31, 2^32)` the id extraction raises instead.) -/
theorem response_routing (s : client_state) (rid : Nat) (err result : mobj)
    (hr : rid < 2 ^ 31) (hp : s.pending rid = true) :
    (dispatch s (mobj.arr [mobj.int 1, mobj.int rid, err, result])).1.pending rid
        = false
    ∧ (dispatch s (mobj.arr [mobj.int 1, mobj.int rid, err, result])).2 =
        (if err.is_nil then
          [cevent.timer_cancel rid, cevent.complete rid ecode.success result]
        else
          [cevent.timer_cancel rid, cevent.complete rid ecode.call_error err]) := by
  have hid : Int.toNat ((rid : Int) % 4294967296) = rid := by omega
  have hc : -(2 ^ 31 : Int) ≤ (rid : Int) ∧ (rid : Int) < 2 ^ 31 :=
    ⟨by omega, by omega⟩
  have ha : as_int (mobj.int (rid : Int)) = some (rid : Int) := by
    simp only [as_int]
    rw [if_pos hc]
  have hv : verify_reponse
      (mobj.arr [mobj.int 1, mobj.int (rid : Int), err, result])
      = some true := by
    simp [verify_reponse, check_tag, as_int, msgpack_rpc_response_tag]
  have hd : dispatch s (mobj.arr [mobj.int 1, mobj.int rid, err, result])
      = route_response s (as_int (mobj.int (rid : Int))) err result := by
    simp [dispatch, hv]
  rw [hd, ha]
  by_cases hn : err.is_nil = true <;>
    simp [route_response, hn, maybe_call_handler, hid, hp]

/-- Closed instance of response routing, on the error branch. -/
theorem response_routing_witness :
    (dispatch pending0
        (mobj.arr [mobj.int 1, mobj.int 0, mobj.str ecode.call_error.message,
          mobj.nil])).1.pending 0 = false
    ∧ (dispatch pending0
        (mobj.arr [mobj.int 1, mobj.int 0, mobj.str ecode.call_error.message,
          mobj.nil])).2 =
        [cevent.timer_cancel 0,
         cevent.complete 0 ecode.call_error
           (mobj.str ecode.call_error.message)] := by
  have h := response_routing pending0 0 (mobj.str ecode.call_error.message)
    mobj.nil (by norm_num) rfl
  exact ⟨h.1, h.2⟩

/-- C9 counterexample: a well-formed nil/nil response addressed to the
pending id 2^31 passes verification (tag check only) yet the id
extraction raises `msgpack::type_error`: no completion is invoked and
the entry remains, refuting the claim for that id. -/
theorem both_nil_raises_above_int_max :
    verify_reponse
        (mobj.arr [mobj.int 1, mobj.int (2 ^ 31), mobj.nil, mobj.nil])
        = some true
    ∧ (dispatch pending31
        (mobj.arr [mobj.int 1, mobj.int (2 ^ 31), mobj.nil, mobj.nil])).2
        = [cevent.raise]
    ∧ completions_for (2 ^ 31)
        (dispatch pending31
          (mobj.arr [mobj.int 1, mobj.int (2 ^ 31), mobj.nil, mobj.nil])).2 = 0
    ∧ (dispatch pending31
        (mobj.arr [mobj.int 1, mobj.int (2 ^ 31), mobj.nil, mobj.nil])).1.pending
        (2 ^ 31) = true := by
  exact ⟨rfl, rfl, rfl, rfl⟩

/-- C9 (amended): a well-formed response (4-element array tagged 1)
whose id is pending and representable in a C `int` (below 2^31), with
both error and result nil, passes `verify_reponse` — the client checks
only shape and tag, never the exactly-one-non-nil wire invariant — is
not treated as a protocol error (no close), and completes the call with
`(Success, nil)`.  (For pending ids in `[2^31, 2^32)` the id extraction
raises instead of completing.) -/
theorem both_nil_is_success (s : client_state) (rid : Nat)
    (hr : rid < 2 ^ 31) (hp : s.pending rid = true) :
    verify_reponse (mobj.arr [mobj.int 1, mobj.int rid, mobj.nil, mobj.nil])
        = some true
    ∧ (dispatch s (mobj.arr [mobj.int 1, mobj.int rid, mobj.nil, mobj.nil])).2 =
        [cevent.timer_cancel rid, cevent.complete rid ecode.success mobj.nil]
    ∧ ∀ e ∈ (dispatch s
          (mobj.arr [mobj.int 1, mobj.int rid, mobj.nil, mobj.nil])).2,
        e ≠ cevent.close := by
  have hid : Int.toNat ((rid : Int) % 4294967296) = rid := by omega
  have hc : -(2 ^ 31 : Int) ≤ (rid : Int) ∧ (rid : Int) < 2 ^ 31 :=
    ⟨by omega, by omega⟩
  have ha : as_int (mobj.int (rid : Int)) = some (rid : Int) := by
    simp only [as_int]
    rw [if_pos hc]
  have hv : verify_reponse
      (mobj.arr [mobj.int 1, mobj.int (rid : Int), mobj.nil, mobj.nil])
      = some true := by
    simp [verify_reponse, check_tag, as_int, msgpack_rpc_response_tag]
  have hd : dispatch s (mobj.arr [mobj.int 1, mobj.int rid, mobj.nil, mobj.nil])
      = route_response s (as_int (mobj.int (rid : Int))) mobj.nil mobj.nil := by
    simp [dispatch, hv]
  have h2 : (dispatch s
        (mobj.arr [mobj.int 1, mobj.int rid, mobj.nil, mobj.nil])).2 =
      [cevent.timer_cancel rid, cevent.complete rid ecode.success mobj.nil] := by
    rw [hd, ha]
    simp [route_response, mobj.is_nil, maybe_call_handler, hid, hp]
  refine ⟨hv, h2, ?_⟩
  intro e he
  rw [h2] at he
  simp only [List.mem_cons, List.not_mem_nil, or_false] at he
  rcases he with rfl | rfl <;> simp

/-- Closed instance of the nil-nil success routing. -/
theorem both_nil_is_success_witness :
    (dispatch pending0
        (mobj.arr [mobj.int 1, mobj.int 0, mobj.nil, mobj.nil])).2 =
      [cevent.timer_cancel 0, cevent.complete 0 ecode.success mobj.nil] :=
  (both_nil_is_success pending0 0 (by norm_num) rfl).2.1

/-- C7 counterexample: a write that fails with the transport's own code
(here a system error numbered 32, broken pipe) invokes the completion
with that same propagated code — which is distinct from the dedicated
`WriteError` code the claim names. -/
theorem write_error_not_converted :
    (on_write_complete pending0 0 (ecode.transport 32)).2 =
      [cevent.timer_cancel 0,
       cevent.complete 0 (ecode.transport 32)
         (mobj.str (ecode.transport 32).message)]
    ∧ ecode.transport 32 ≠ ecode.write_error := by
  exact ⟨rfl, by decide⟩

/-- C7 (amended): if the write of a call's request buffer fails, the
client removes the call-table entry (cancelling its timer) and invokes
the completion with the write's own error code — propagated unchanged
rather than converted to a dedicated WriteError — and the string form of
that error's message as the value. -/
theorem write_failure_propagates (s : client_state) (id : Nat) (ec : ecode)
    (hec : ec ≠ ecode.success) (hp : s.pending id = true) :
    (on_write_complete s id ec).1.pending id = false
    ∧ (on_write_complete s id ec).2 =
        [cevent.timer_cancel id,
         cevent.complete id ec (mobj.str ec.message)] := by
  simp [on_write_complete, hec, maybe_call_handler, hp]

/-- Closed instance of write-failure propagation. -/
theorem write_failure_propagates_witness :
    (on_write_complete pending0 0 ecode.operation_aborted).1.pending 0 = false
    ∧ (on_write_complete pending0 0 ecode.operation_aborted).2 =
        [cevent.timer_cancel 0,
         cevent.complete 0 ecode.operation_aborted
           (mobj.str ecode.operation_aborted.message)] :=
  write_failure_propagates pending0 0 ecode.operation_aborted (by decide) rfl

theorem completions_for_append (id : Nat) (l1 l2 : List cevent) :
    completions_for id (l1 ++ l2)
      = completions_for id l1 + completions_for id l2 := by
  simp [completions_for, List.countP_append]

/-- Counting helpers for `completions_for` on literal event lists. -/
theorem completions_for_nil (id : Nat) : completions_for id [] = 0 := rfl

theorem completions_for_complete (id j : Nat) (ec : ecode) (v : mobj)
    (rest : List cevent) :
    completions_for id (cevent.complete j ec v :: rest)
      = completions_for id rest + (if j = id then 1 else 0) := by
  by_cases h : j = id <;>
    simp [completions_for, List.countP_cons, is_completion_for, h]

theorem completions_for_cancel (id j : Nat) (rest : List cevent) :
    completions_for id (cevent.timer_cancel j :: rest)
      = completions_for id rest := by
  simp [completions_for, List.countP_cons, is_completion_for]

theorem completions_for_close (id : Nat) (rest : List cevent) :
    completions_for id (cevent.close :: rest) = completions_for id rest := by
  simp [completions_for, List.countP_cons, is_completion_for]

theorem completions_for_raise (id : Nat) (rest : List cevent) :
    completions_for id (cevent.raise :: rest) = completions_for id rest := by
  simp [completions_for, List.countP_cons, is_completion_for]

/-- `maybe_call_handler` always leaves its id absent, leaves other ids
untouched, and invokes the completion for an id exactly when it is that
id and the entry was present. -/
theorem maybe_call_handler_spec (s : client_state) (j : Nat) (v : mobj)
    (ec : ecode) (id : Nat) :
    (maybe_call_handler s j v ec).1.pending j = false
    ∧ (id ≠ j → (maybe_call_handler s j v ec).1.pending id = s.pending id)
    ∧ completions_for id (maybe_call_handler s j v ec).2
        = (if j = id ∧ s.pending j = true then 1 else 0) := by
  unfold maybe_call_handler
  by_cases hp : s.pending j = true
  · refine ⟨by simp [hp], fun hij => by simp [hp, hij], ?_⟩
    rw [if_pos hp]
    simp only [completions_for_cancel, completions_for_complete,
      completions_for_nil, hp]
    by_cases hij : j = id <;> simp [hij]
  · have hpf : s.pending j = false := by
      cases hb : s.pending j
      · rfl
      · exact absurd hb hp
    refine ⟨by simp [hp, hpf], fun _ => by simp [hp], ?_⟩
    rw [if_neg hp]
    simp [completions_for_nil, hp]

/-- Inversion of `resp_target`. -/
theorem as_int_some (o : mobj) (n : Int) (h : as_int o = some n) :
    o = mobj.int n ∧ -(2 ^ 31) ≤ n ∧ n < 2 ^ 31 := by
  cases o with
  | int m =>
    simp only [as_int] at h
    split_ifs at h with hc
    · injection h with h2
      subst h2
      exact ⟨rfl, hc.1, hc.2⟩
  | nil => exact absurd h (by simp [as_int])
  | str t => exact absurd h (by simp [as_int])
  | arr xs => exact absurd h (by simp [as_int])
  | other t => exact absurd h (by simp [as_int])

theorem check_tag_some_true (o : Option Int) (h : check_tag o = some true) :
    o = some msgpack_rpc_response_tag := by
  cases o with
  | none => cases h
  | some tag =>
    simp only [check_tag] at h
    injection h with h
    rw [eq_of_beq h]

theorem resp_target_some (resp : mobj) (j : Nat)
    (h : resp_target resp = some j) :
    ∃ n err result, resp = mobj.arr [mobj.int 1, mobj.int n, err, result]
      ∧ as_int (mobj.int n) = some n ∧ j = Int.toNat (n % 2 ^ 32) := by
  rw [resp_target.eq_def] at h
  split at h
  case _ i e r =>
    rw [Option.map_eq_some'] at h
    obtain ⟨n, hn, hj⟩ := h
    obtain ⟨hi, _, _⟩ := as_int_some i n hn
    subst hi
    exact ⟨n, e, r, rfl, hn, hj.symm⟩
  case _ => cases h

/-- `dispatch` either addresses the pending id named by `resp_target` via
`maybe_call_handler`, or — malformed message, tag or id raising in
`as<int>()`, or untargeted shape — leaves the call table unchanged and
completes nothing. -/
theorem dispatch_cases (s : client_state) (resp : mobj) :
    (∃ j, resp_target resp = some j
      ∧ ∃ v ec, dispatch s resp = maybe_call_handler s j v ec)
    ∨ (resp_target resp = none ∧ (dispatch s resp).1 = s
        ∧ ∀ id, completions_for id (dispatch s resp).2 = 0) := by
  rcases hr : resp_target resp with _ | j
  · right
    refine ⟨rfl, ?_⟩
    cases hv : verify_reponse resp with
    | none =>
      have hd : dispatch s resp = (s, [cevent.raise]) := by
        simp [dispatch, hv]
      refine ⟨by rw [hd], fun id => ?_⟩
      rw [hd]
      simp [completions_for_raise, completions_for_nil]
    | some b =>
      cases b with
      | false =>
        have hd : dispatch s resp = (s, [cevent.close]) := by
          simp [dispatch, hv]
        refine ⟨by rw [hd], fun id => ?_⟩
        rw [hd]
        simp [completions_for_close, completions_for_nil]
      | true =>
        have hv2 := hv
        rw [verify_reponse.eq_def] at hv2
        split at hv2
        case _ t a b c =>
          have hct := check_tag_some_true _ hv2
          obtain ⟨ht, _, _⟩ := as_int_some t msgpack_rpc_response_tag hct
          subst ht
          simp only [resp_target, msgpack_rpc_response_tag] at hr
          rw [Option.map_eq_none'] at hr
          have hd : dispatch s
              (mobj.arr [mobj.int msgpack_rpc_response_tag, a, b, c])
              = route_response s (as_int a) b c := by
            simp [dispatch, hv]
          rw [hr] at hd
          simp only [route_response] at hd
          refine ⟨by rw [hd], fun id => ?_⟩
          rw [hd]
          simp [completions_for_raise, completions_for_nil]
        case _ => exact absurd hv2 (by simp)
  · left
    refine ⟨j, rfl, ?_⟩
    obtain ⟨n, err, result, rfl, ha, rfl⟩ := resp_target_some resp j hr
    have hv : verify_reponse (mobj.arr [mobj.int 1, mobj.int n, err, result])
        = some true := by
      simp [verify_reponse, check_tag, as_int, msgpack_rpc_response_tag]
    have hd : dispatch s (mobj.arr [mobj.int 1, mobj.int n, err, result])
        = route_response s (as_int (mobj.int n)) err result := by
      simp [dispatch, hv]
    rw [hd, ha]
    by_cases hn : err.is_nil = true
    · exact ⟨result, ecode.success, by simp [route_response, hn]⟩
    · exact ⟨err, ecode.call_error, by simp [route_response, hn]⟩

/-- Per-step facts: a step cannot resurrect an absent entry or complete
for it; a step not targeting an id preserves it and completes nothing for
it; a step targeting a present id removes it and completes exactly once. -/
theorem client_step_spec (s : client_state) (e : cstep) (id : Nat) :
    (s.pending id = false →
      (client_step s e).1.pending id = false
      ∧ completions_for id (client_step s e).2 = 0)
    ∧ (targets id e = false →
      (client_step s e).1.pending id = s.pending id
      ∧ completions_for id (client_step s e).2 = 0)
    ∧ (targets id e = true → s.pending id = true →
      (client_step s e).1.pending id = false
      ∧ completions_for id (client_step s e).2 = 1) := by
  cases e with
  | timer_fire i ec =>
    by_cases ha : ec = ecode.operation_aborted
    · have hstep : client_step s (cstep.timer_fire i ec) = (s, []) := by
        simp [client_step, on_timer_fire, ha]
      have ht : targets id (cstep.timer_fire i ec) = false := by
        simp [targets, ha]
      rw [hstep, ht]
      exact ⟨fun h => ⟨h, rfl⟩, fun _ => ⟨rfl, rfl⟩, fun hf => by cases hf⟩
    · have ht : targets id (cstep.timer_fire i ec) = (i == id) := by
        simp [targets, ha]
      by_cases hp : s.pending i = true
      · have hstep : client_step s (cstep.timer_fire i ec)
            = ({ s with pending := fun k => if k = i then false else s.pending k },
              [cevent.complete i ecode.timeout
                (mobj.str ecode.timeout.message)]) := by
          simp [client_step, on_timer_fire, ha, hp]
        rw [hstep, ht]
        by_cases hij : i = id
        · subst hij
          refine ⟨fun h0 => absurd hp (by rw [h0]; simp), fun hf => ?_,
            fun _ _ => ⟨by simp, ?_⟩⟩
          · rw [beq_self_eq_true] at hf
            cases hf
          · rw [completions_for_complete, completions_for_nil]
            simp
        · have hji : ¬ id = i := fun h => hij h.symm
          refine ⟨fun h0 => ⟨by simp [hji, h0], ?_⟩, fun _ => ⟨by simp [hji], ?_⟩,
            fun hf => ?_⟩
          · rw [completions_for_complete, completions_for_nil]
            simp [hij]
          · rw [completions_for_complete, completions_for_nil]
            simp [hij]
          · rw [beq_iff_eq] at hf
            exact absurd hf hij
      · have hstep : client_step s (cstep.timer_fire i ec) = (s, []) := by
          simp [client_step, on_timer_fire, ha, hp]
        rw [hstep, ht]
        refine ⟨fun h => ⟨h, rfl⟩, fun _ => ⟨rfl, rfl⟩, fun hf hpid => ?_⟩
        rw [beq_iff_eq] at hf
        subst hf
        exact absurd hpid hp
  | write_fail i ec =>
    by_cases hs : ec = ecode.success
    · have hstep : client_step s (cstep.write_fail i ec) = (s, []) := by
        simp [client_step, on_write_complete, hs]
      have ht : targets id (cstep.write_fail i ec) = false := by
        simp [targets, hs]
      rw [hstep, ht]
      exact ⟨fun h => ⟨h, rfl⟩, fun _ => ⟨rfl, rfl⟩, fun hf => by cases hf⟩
    · have hstep : client_step s (cstep.write_fail i ec)
          = maybe_call_handler s i (mobj.str ec.message) ec := by
        simp [client_step, on_write_complete, hs]
      have ht : targets id (cstep.write_fail i ec) = (i == id) := by
        simp [targets, hs]
      have hm := maybe_call_handler_spec s i (mobj.str ec.message) ec id
      rw [hstep, ht]
      by_cases hij : i = id
      · subst hij
        refine ⟨fun h0 => ⟨hm.1, by rw [hm.2.2]; simp [h0]⟩,
          fun hf => ?_, fun _ hpid => ⟨hm.1, by rw [hm.2.2]; simp [hpid]⟩⟩
        rw [beq_self_eq_true] at hf
        cases hf
      · have hji : id ≠ i := fun h => hij h.symm
        refine ⟨fun h0 => ⟨by rw [hm.2.1 hji]; exact h0, ?_⟩,
          fun _ => ⟨hm.2.1 hji, ?_⟩, fun hf => ?_⟩
        · rw [hm.2.2]
          simp [hij]
        · rw [hm.2.2]
          simp [hij]
        · rw [beq_iff_eq] at hf
          exact absurd hf hij
  | response resp =>
    rcases dispatch_cases s resp with ⟨j, hj, v, ec2, hd⟩ | ⟨hn, h1, h0⟩
    · have hm := maybe_call_handler_spec s j v ec2 id
      have hstep : client_step s (cstep.response resp)
          = maybe_call_handler s j v ec2 := hd
      have ht : targets id (cstep.response resp) = (j == id) := by
        simp [targets, hj]
      rw [hstep, ht]
      by_cases hij : j = id
      · subst hij
        refine ⟨fun h0 => ⟨hm.1, by rw [hm.2.2]; simp [h0]⟩,
          fun hf => ?_, fun _ hpid => ⟨hm.1, by rw [hm.2.2]; simp [hpid]⟩⟩
        rw [beq_self_eq_true] at hf
        cases hf
      · have hji : id ≠ j := fun h => hij h.symm
        refine ⟨fun h0 => ⟨by rw [hm.2.1 hji]; exact h0, ?_⟩,
          fun _ => ⟨hm.2.1 hji, ?_⟩, fun hf => ?_⟩
        · rw [hm.2.2]
          simp [hij]
        · rw [hm.2.2]
          simp [hij]
        · rw [beq_iff_eq] at hf
          exact absurd hf hij
    · have ht : targets id (cstep.response resp) = false := by
        simp [targets, hn]
      have hstep1 : (client_step s (cstep.response resp)).1 = s := h1
      have hstep2 : completions_for id (client_step s (cstep.response resp)).2
          = 0 := h0 id
      rw [ht, hstep1, hstep2]
      exact ⟨fun h => ⟨h, rfl⟩, fun _ => ⟨rfl, rfl⟩, fun hf => by cases hf⟩

/-- An id absent from the call table stays absent and receives no
completion along any sequence of consuming events. -/
theorem absent_run (s : client_state) (steps : List cstep) (id : Nat)
    (h : s.pending id = false) :
    completions_for id (run s steps).2 = 0
    ∧ (run s steps).1.pending id = false := by
  induction steps generalizing s with
  | nil => simpa [run, completions_for]
  | cons e rest ih =>
    have hstep := (client_step_spec s e id).1 h
    have hrest := ih (client_step s e).1 hstep.1
    simp only [run]
    rw [completions_for_append]
    exact ⟨by rw [hstep.2, hrest.1], hrest.2⟩

/-- C4: a pending call-table entry is consumed by exactly one of the
three paths — timer fire, response dispatch, or write failure.  Along any
sequence of consuming events that contains at least one event targeting a
pending id, the user completion for that id is invoked exactly once and
the entry is afterwards absent; each individual path completes only if it
removed the entry while it was still present (`client_step_spec`). -/
theorem exactly_once_completion (s : client_state) (steps : List cstep)
    (id : Nat) (hp : s.pending id = true)
    (ht : ∃ e ∈ steps, targets id e = true) :
    completions_for id (run s steps).2 = 1
    ∧ (run s steps).1.pending id = false := by
  induction steps generalizing s with
  | nil => simp at ht
  | cons e rest ih =>
    obtain ⟨e0, he0, hte0⟩ := ht
    simp only [run]
    rw [completions_for_append]
    by_cases hte : targets id e = true
    · have hc := (client_step_spec s e id).2.2 hte hp
      have hrest := absent_run (client_step s e).1 rest id hc.1
      exact ⟨by rw [hc.2, hrest.1], hrest.2⟩
    · have hpre := (client_step_spec s e id).2.1 (by simpa using hte)
      have he0' : e0 ∈ rest := by
        rcases List.mem_cons.mp he0 with h | h
        · subst h; exact absurd hte0 hte
        · exact h
      have hrest := ih (client_step s e).1 (by rw [hpre.1]; exact hp)
        ⟨e0, he0', hte0⟩
      exact ⟨by rw [hpre.2, hrest.1], hrest.2⟩

/-- Closed instance: a timer fire and a response racing for the same
pending id deliver exactly one completion. -/
theorem exactly_once_completion_witness :
    completions_for 0 (run pending0
      [cstep.timer_fire 0 ecode.success,
       cstep.response (mobj.arr [mobj.int 1, mobj.int 0, mobj.nil, mobj.nil])]).2
        = 1
    ∧ (run pending0
      [cstep.timer_fire 0 ecode.success,
       cstep.response (mobj.arr [mobj.int 1, mobj.int 0, mobj.nil, mobj.nil])]).1.pending 0
        = false :=
  exactly_once_completion pending0
    [cstep.timer_fire 0 ecode.success,
     cstep.response (mobj.arr [mobj.int 1, mobj.int 0, mobj.nil, mobj.nil])]
    0 rfl ⟨cstep.timer_fire 0 ecode.success, List.mem_cons_self _ _, rfl⟩

end Packio
